import Mathlib

/-!
Shallow embedding of the sycamore reactive-signal core
(`packages/sycamore-reactive/src/signal/{public,private}.rs`).

Modelling choices:

* A signal cell (`SignalInner<T>`) holds `inner : Rc<T>` and
  `subscribers : IndexMap<CallbackPtr, Callback>`.  `Rc` snapshots are
  modelled by a grow-only heap (`Engine.heap : List α`); a snapshot is an
  index into this heap.  `Rc::new` appends a fresh entry; nothing ever
  mutates an existing entry, mirroring the fact that `SignalInner::update`
  installs a brand-new `Rc` instead of writing through the old one.
* A `Callback` is `Weak<RefCell<dyn FnMut()>>`; its identity
  (`CallbackPtr`) is the pointer.  We model callbacks by `Nat` identities
  with a global environment `beh : Nat -> List (Act α)` giving each
  callback's body as a straight-line list of engine actions, plus per-id
  `alive` (does the weak upgrade succeed, i.e. `try_callback`) and
  `running` (is the `RefCell` currently mutably borrowed, i.e. would
  `try_borrow_mut` fail) flags.
* Since the stored `Callback` value is determined by its `CallbackPtr` key
  (two handles with equal pointers are clones of the same weak reference),
  the `IndexMap` is modelled by its key sequence `subs : List Nat` in
  insertion order.  `IndexMap::insert` with a present key keeps the key's
  position and replaces the (identical) value, hence is a no-op on this
  model; `IndexMap::remove` of the indexmap 1.x series used by this code
  is `swap_remove` (remove by swapping with the last entry).
* Nested propagation (`set` inside a callback) is bounded by an explicit
  `fuel` parameter that decreases at each nested `trigger_subscribers`
  call; with fuel 0 a trigger invokes nothing.  All claims are either
  fuel-generic or are instantiated at a fuel exceeding the nesting depth
  of the scenario.
* The dependency tracker `LISTENERS` is a stack of `Running` contexts
  (head of the list = top of the stack, the `last()` element of the
  `Vec`).  The `Running` type itself lives outside this excerpt; its
  `dependencies` field is modelled from the spec (see `Running` below).
-/

namespace Sycamore

/-- Pointwise update of a function out of `Nat`; models writing one slot
of per-callback state (a `RefCell` borrow flag, weak-liveness, or one
cell of the signal store). -/
def upd {β : Type} (f : Nat → β) (i : Nat) (b : β) : Nat → β :=
  fun j => if j = i then b else f j

@[simp]
theorem upd_same {β : Type} (f : Nat → β) (i : Nat) (b : β) : upd f i b i = b := by
  simp [upd]

@[simp]
theorem upd_other {β : Type} (f : Nat → β) (i j : Nat) (b : β) (h : j ≠ i) :
    upd f i b j = f j := by
  simp [upd, h]

theorem upd_upd_same {β : Type} (f : Nat → β) (i : Nat) (b b' : β) :
    upd (upd f i b) i b' = upd f i b' := by
  funext j
  by_cases h : j = i <;> simp [upd, h]

theorem upd_self {β : Type} (f : Nat → β) (i : Nat) : upd f i (f i) = f := by
  funext j
  by_cases h : j = i <;> simp [upd, h]

/-- One signal cell: `SignalInner<T>` from `signal/private.rs`.
`snap` is the current `inner : Rc<T>` snapshot (a heap index), `subs` the
key sequence of `subscribers : IndexMap<CallbackPtr, Callback>` in
insertion order. -/
structure CellState where
  snap : Nat
  subs : List Nat
deriving Repr, DecidableEq

/-- The whole mutable world the signal code touches: the `Rc` heap, the
store of signal cells, the per-callback weak-liveness and borrow flags,
and an observation log recording each callback invocation (the moment
`callback()` actually runs) in chronological order. -/
structure Engine (α : Type) where
  heap : List α
  cells : Nat → CellState
  alive : Nat → Bool
  running : Nat → Bool
  log : List Nat

/-- `IndexMap::insert` keyed by callback identity, as performed by
`SignalInner::subscribe`: a present key keeps its position (and its
value, which the key determines), an absent key is appended at the end
of the insertion order. -/
def insertSub (l : List Nat) (cb : Nat) : List Nat :=
  if cb ∈ l then l else l ++ [cb]

/-- `IndexMap::remove` (indexmap 1.x `swap_remove`): locate the key,
overwrite its slot with the last entry, and drop the last slot; absent
keys leave the map untouched. -/
def swapRemove : List Nat → Nat → List Nat
  | [], _ => []
  | x :: xs, k =>
    if x = k then
      match xs.getLast? with
      | none => []
      | some y => y :: xs.dropLast
    else
      x :: swapRemove xs k

/-- `SignalInner::new`: wrap the value as the first snapshot of a fresh
cell with an empty subscriber map (installed at cell id `c`). -/
def newCell {α : Type} (e : Engine α) (c : Nat) (v : α) : Engine α :=
  { e with
    heap := e.heap ++ [v]
    cells := upd e.cells c ⟨e.heap.length, []⟩ }

/-- `SignalInner::update`: replace the cell's snapshot by a brand-new
`Rc::new(new_value)`.  Does NOT call the subscribers. -/
def update {α : Type} (e : Engine α) (c : Nat) (v : α) : Engine α :=
  { e with
    heap := e.heap ++ [v]
    cells := upd e.cells c ⟨e.heap.length, (e.cells c).subs⟩ }

/-- `SignalInner::subscribe`: idempotent insert keyed by callback
identity. -/
def subscribe {α : Type} (e : Engine α) (c : Nat) (cb : Nat) : Engine α :=
  { e with cells := upd e.cells c ⟨(e.cells c).snap, insertSub (e.cells c).subs cb⟩ }

/-- `SignalInner::unsubscribe`: idempotent remove by callback identity. -/
def unsubscribe {α : Type} (e : Engine α) (c : Nat) (cb : Nat) : Engine α :=
  { e with cells := upd e.cells c ⟨(e.cells c).snap, swapRemove (e.cells c).subs cb⟩ }

/-- `ReadSignalTrait::get_untracked`: clone and return the current `Rc`
snapshot.  The function reads only the cell; it does not consult the
`LISTENERS` stack, so it can never register a dependency. -/
def get_untracked {α : Type} (e : Engine α) (c : Nat) : Nat :=
  (e.cells c).snap

/-- Dereference a snapshot (`*rc`): look the `Rc` up in the heap. -/
def snapVal {α : Type} (e : Engine α) (s : Nat) : Option α :=
  e.heap[s]?

/-- The value currently stored in a cell, i.e. `*signal.get_untracked()`. -/
def currentValue {α : Type} (e : Engine α) (c : Nat) : Option α :=
  snapVal e (get_untracked e c)

/-- One primitive step a callback body may perform against the engine:
the write-side signal operations from `signal/{public,private}.rs`, plus
`dispose`, which models the owning reactive computation being dropped
(after which the callback's weak reference no longer upgrades). -/
inductive Act (α : Type) where
  | set (c : Nat) (v : α)
  | subscribe (c : Nat) (cb : Nat)
  | unsubscribe (c : Nat) (cb : Nat)
  | dispose (cb : Nat)
deriving DecidableEq

/-- Run one action, given `doTrigger`, the (fuel-instantiated)
`trigger_subscribers` to use for nested propagation.  `Act.set` is
`SignalTrait::set`: `update` then `trigger_subscribers`. -/
def runAct {α : Type} (doTrigger : Engine α → Nat → Engine α) (e : Engine α) :
    Act α → Engine α
  | .set c v => doTrigger (update e c v) c
  | .subscribe c cb => subscribe e c cb
  | .unsubscribe c cb => unsubscribe e c cb
  | .dispose cb => { e with alive := upd e.alive cb false }

/-- Run a callback body (a straight-line list of actions) left to right. -/
def runActs {α : Type} (doTrigger : Engine α → Nat → Engine α) :
    Engine α → List (Act α) → Engine α
  | e, [] => e
  | e, a :: rest => runActs doTrigger (runAct doTrigger e a) rest

/-- One iteration of the `trigger_subscribers` loop body for subscriber
`cb`: `try_callback` (weak upgrade; a dead computation is skipped
silently), then `try_borrow_mut` (the re-entrancy guard; a callback that
is already executing is skipped silently), and only then `callback()`.
While the body runs, the `RefCell` borrow is held (`running cb = true`)
and released afterwards; the invocation is appended to the log. -/
def invokeOne {α : Type} (beh : Nat → List (Act α))
    (doTrigger : Engine α → Nat → Engine α) (e : Engine α) (cb : Nat) : Engine α :=
  if e.alive cb then
    if e.running cb then e
    else
      let started := { e with running := upd e.running cb true, log := e.log ++ [cb] }
      let finished := runActs doTrigger started (beh cb)
      { finished with running := upd finished.running cb false }
  else e

/-- Iterate `invokeOne` over the (already reversed) cloned subscriber
sequence. -/
def invokeList {α : Type} (beh : Nat → List (Act α))
    (doTrigger : Engine α → Nat → Engine α) : Engine α → List Nat → Engine α
  | e, [] => e
  | e, cb :: rest => invokeList beh doTrigger (invokeOne beh doTrigger e cb) rest

/-- `SignalTrait::trigger_subscribers`: clone the subscriber map of the
cell (so callbacks that subscribe or unsubscribe during the pass do not
affect the in-progress iteration), then invoke the clone's values in
reverse insertion order.  The `fuel` bounds the nesting depth of
propagation passes: each nested `set` performed by a callback triggers
with one unit less. -/
def trigger_subscribers {α : Type} (beh : Nat → List (Act α)) :
    Nat → Engine α → Nat → Engine α
  | 0, e, _ => e
  | fuel + 1, e, c =>
    invokeList beh (trigger_subscribers beh fuel) e (e.cells c).subs.reverse

/-- `SignalTrait::set`: `update` the snapshot, then `trigger_subscribers`. -/
def set {α : Type} (beh : Nat → List (Act α)) (fuel : Nat) (e : Engine α)
    (c : Nat) (v : α) : Engine α :=
  trigger_subscribers beh fuel (update e c v) c

/-- Modelled from the spec: the `Running` context of an active reactive
computation (the type lives in the effect module, outside this excerpt).
Per the spec its `dependencies` field is a set of dependency edges keyed
by cell identity — "a set — re-reading the same cell within one run is
deduplicated". -/
structure Running where
  dependencies : List Nat
deriving Repr, DecidableEq

/-- Modelled from the spec: inserting into the `dependencies` set
(`HashSet<Dependency>`), keyed by the read cell's identity; inserting a
present element leaves the set unchanged. -/
def insertDep (deps : List Nat) (d : Nat) : List Nat :=
  if d ∈ deps then deps else deps ++ [d]

/-- `ReadSignalTrait::get`: if the `LISTENERS` stack has a top context
(`listeners.borrow().last()` — here the head of the list), insert this
cell into that context's dependency set; in every case return the
current snapshot via `get_untracked`.  With an empty stack the tracking
block is skipped entirely (the `if let` takes the `None` arm; no error
path is involved). -/
def get {α : Type} (ts : List Running) (e : Engine α) (c : Nat) :
    List Running × Nat :=
  match ts with
  | [] => ([], get_untracked e c)
  | ctx :: rest => (⟨insertDep ctx.dependencies c⟩ :: rest, get_untracked e c)

/-- Calling `get_untracked` in a world whose tracker stack is `ts`: the
source function never touches `LISTENERS`, so the stack is returned
unchanged by construction. -/
def get_untrackedT {α : Type} (ts : List Running) (e : Engine α) (c : Nat) :
    List Running × Nat :=
  (ts, get_untracked e c)

/-- `PartialEq for StaticSignal / DynSignal`:
`self.get_untracked().eq(&other.get_untracked())` — the `Rc<T>`
comparison delegates to `T`'s equality on the dereferenced current
values, so signals compare by current value, not by cell identity. -/
def sigEq {α : Type} [DecidableEq α] (e : Engine α) (a b : Nat) : Bool :=
  decide (currentValue e a = currentValue e b)

/-- `Hash for StaticSignal / DynSignal`: `self.get_untracked().hash(state)`
— the `Rc<T>` hash delegates to hashing the dereferenced current value
(`h` stands for the value type's hash function). -/
def sigHash {α : Type} (h : α → Nat) (e : Engine α) (a : Nat) : Option Nat :=
  (currentValue e a).map h

/-! Basic preservation lemmas. -/

@[simp]
theorem update_log {α : Type} (e : Engine α) (c : Nat) (v : α) :
    (update e c v).log = e.log := rfl

@[simp]
theorem update_running {α : Type} (e : Engine α) (c : Nat) (v : α) :
    (update e c v).running = e.running := rfl

@[simp]
theorem update_alive {α : Type} (e : Engine α) (c : Nat) (v : α) :
    (update e c v).alive = e.alive := rfl

theorem update_subs {α : Type} (e : Engine α) (c c' : Nat) (v : α) :
    ((update e c v).cells c').subs = (e.cells c').subs := by
  by_cases h : c' = c <;> simp [update, upd, h]

theorem currentValue_update {α : Type} (e : Engine α) (c : Nat) (v : α) :
    currentValue (update e c v) c = some v := by
  simp [currentValue, update, get_untracked, snapVal, upd, List.getElem?_concat_length]

theorem heap_lookup_update {α : Type} (e : Engine α) (c : Nat) (v : α) (p : Nat)
    (hp : p < e.heap.length) :
    (update e c v).heap[p]? = e.heap[p]? := by
  simp [update, List.getElem?_append_left hp]

/-- A subscriber identity is live for a propagation pass when its weak
reference upgrades and its `RefCell` is not currently borrowed. -/
def liveb {α : Type} (e : Engine α) (cb : Nat) : Bool :=
  e.alive cb && !e.running cb

/-! Inert callbacks: when every invoked callback has an empty body, a
propagation pass only appends to the log. -/

theorem invokeOne_inert {α : Type} (beh : Nat → List (Act α))
    (doTrigger : Engine α → Nat → Engine α) (e : Engine α) (cb : Nat)
    (hb : beh cb = []) :
    invokeOne beh doTrigger e cb =
      if liveb e cb then { e with log := e.log ++ [cb] } else e := by
  by_cases ha : e.alive cb = true
  · by_cases hr : e.running cb = true
    · simp [invokeOne, liveb, ha, hr]
    · have hr' : e.running cb = false := by
        simpa using hr
      simp only [invokeOne, ha, hr', liveb, Bool.not_false, Bool.and_true, if_true,
        Bool.false_eq_true, if_false, hb, runActs]
      cases e with
      | mk heap cells alive running log =>
        simp [upd_upd_same]
        rw [show (false : Bool) = running cb from hr'.symm, upd_self]
  · have ha' : e.alive cb = false := by simpa using ha
    simp [invokeOne, liveb, ha']

theorem invokeOne_liveb_alive_running {α : Type} (beh : Nat → List (Act α))
    (doTrigger : Engine α → Nat → Engine α) (e : Engine α) (cb : Nat)
    (hb : beh cb = []) :
    (invokeOne beh doTrigger e cb).alive = e.alive ∧
    (invokeOne beh doTrigger e cb).running = e.running ∧
    (invokeOne beh doTrigger e cb).cells = e.cells ∧
    (invokeOne beh doTrigger e cb).heap = e.heap := by
  rw [invokeOne_inert beh doTrigger e cb hb]
  by_cases h : liveb e cb = true <;> simp [h]

theorem invokeList_inert {α : Type} (beh : Nat → List (Act α))
    (doTrigger : Engine α → Nat → Engine α) (l : List Nat) :
    ∀ e : Engine α, (∀ cb ∈ l, beh cb = []) →
      invokeList beh doTrigger e l =
        { e with log := e.log ++ l.filter (fun cb => liveb e cb) } := by
  induction l with
  | nil => intro e _; simp [invokeList]
  | cons cb rest ih =>
    intro e hb
    have hcb : beh cb = [] := hb cb (by simp)
    have hrest : ∀ x ∈ rest, beh x = [] := fun x hx => hb x (by simp [hx])
    rw [invokeList, invokeOne_inert beh doTrigger e cb hcb]
    by_cases h : liveb e cb = true
    · rw [if_pos h, ih _ hrest]
      simp [liveb, List.filter_cons, h, List.append_assoc]
      have h2 : e.alive cb = true ∧ e.running cb = false := by
        simpa [liveb] using h
      rw [if_pos h2]
    · rw [if_neg h, ih _ hrest]
      have h' : liveb e cb = false := by simpa using h
      simp [liveb, List.filter_cons, h']
      rw [if_neg]
      intro hcon
      simp [liveb, hcon.1, hcon.2] at h'

theorem trigger_inert_log {α : Type} (beh : Nat → List (Act α)) (fuel : Nat)
    (e : Engine α) (c : Nat)
    (hb : ∀ cb ∈ (e.cells c).subs, beh cb = []) :
    (trigger_subscribers beh (fuel + 1) e c).log =
      e.log ++ (e.cells c).subs.reverse.filter (fun cb => liveb e cb) := by
  rw [trigger_subscribers, invokeList_inert]
  intro cb hcb
  exact hb cb (List.mem_reverse.mp hcb)

theorem trigger_empty_subs {α : Type} (beh : Nat → List (Act α)) (fuel : Nat)
    (e : Engine α) (c : Nat) (h : (e.cells c).subs = []) :
    trigger_subscribers beh fuel e c = e := by
  cases fuel with
  | zero => rfl
  | succ fuel => rw [trigger_subscribers, h]; rfl

theorem set_fresh {α : Type} (beh : Nat → List (Act α)) (fuel : Nat)
    (e : Engine α) (c : Nat) (v : α) (h : (e.cells c).subs = []) :
    Sycamore.set beh fuel e c v = update e c v := by
  rw [Sycamore.set, trigger_empty_subs]
  rw [update_subs]
  exact h

/-! Subscriber-map lemmas. -/

theorem insertSub_mem (l : List Nat) (cb : Nat) (h : cb ∈ l) : insertSub l cb = l := by
  simp [insertSub, h]

theorem insertSub_nodup (l : List Nat) (cb : Nat) (h : l.Nodup) :
    (insertSub l cb).Nodup := by
  by_cases hm : cb ∈ l
  · rw [insertSub_mem l cb hm]; exact h
  · rw [insertSub, if_neg hm]
    exact ((List.nodup_cons.mpr ⟨hm, h⟩).perm (List.perm_append_singleton cb l).symm)

theorem swapRemove_subset (l : List Nat) (k : Nat) : swapRemove l k ⊆ l := by
  induction l with
  | nil => simp [swapRemove]
  | cons x xs ih =>
    by_cases h : x = k
    · simp only [swapRemove, if_pos h]
      cases hg : xs.getLast? with
      | none => simp
      | some y =>
        have hne : xs ≠ [] := by
          intro h0; rw [h0] at hg; simp at hg
        have hy : y = xs.getLast hne := by
          rw [List.getLast?_eq_getLast xs hne] at hg
          exact (Option.some.inj hg).symm
        intro a ha
        rcases List.mem_cons.mp ha with rfl | ha'
        · exact List.mem_cons_of_mem _ (hy ▸ List.getLast_mem hne)
        · exact List.mem_cons_of_mem _ (List.dropLast_subset xs ha')
    · simp only [swapRemove, if_neg h]
      intro a ha
      rcases List.mem_cons.mp ha with rfl | ha'
      · simp
      · exact List.mem_cons_of_mem _ (ih ha')

theorem swapRemove_nodup (l : List Nat) (k : Nat) (h : l.Nodup) :
    (swapRemove l k).Nodup := by
  induction l with
  | nil => simp [swapRemove]
  | cons x xs ih =>
    rcases List.nodup_cons.mp h with ⟨hx, hxs⟩
    by_cases hxk : x = k
    · simp only [swapRemove, if_pos hxk]
      cases hg : xs.getLast? with
      | none => simp
      | some y =>
        have hne : xs ≠ [] := by
          intro h0; rw [h0] at hg; simp at hg
        have hy : y = xs.getLast hne := by
          rw [List.getLast?_eq_getLast xs hne] at hg
          exact (Option.some.inj hg).symm
        subst hy
        have hsplit : (xs.dropLast ++ [xs.getLast hne]).Nodup := by
          rw [List.dropLast_append_getLast hne]; exact hxs
        exact hsplit.perm (List.perm_append_singleton _ _)
    · simp only [swapRemove, if_neg hxk]
      refine List.nodup_cons.mpr ⟨?_, ih hxs⟩
      intro hmem
      exact hx (swapRemove_subset xs k hmem)

theorem swapRemove_not_mem (l : List Nat) (k : Nat) (h : k ∉ l) :
    swapRemove l k = l := by
  induction l with
  | nil => rfl
  | cons x xs ih =>
    have hx : x ≠ k := by
      intro h0; exact h (h0 ▸ List.mem_cons_self x xs)
    have hxs : k ∉ xs := fun hm => h (List.mem_cons_of_mem _ hm)
    simp only [swapRemove, if_neg hx]
    rw [ih hxs]

theorem subscribe_mem_noop {α : Type} (e : Engine α) (c cb : Nat)
    (h : cb ∈ (e.cells c).subs) : subscribe e c cb = e := by
  have hins : insertSub (e.cells c).subs cb = (e.cells c).subs :=
    insertSub_mem _ _ h
  show ({ e with cells := upd e.cells c ⟨(e.cells c).snap, insertSub (e.cells c).subs cb⟩ }
    : Engine α) = e
  rw [hins]
  show ({ e with cells := upd e.cells c (e.cells c) } : Engine α) = e
  rw [upd_self]

theorem unsubscribe_not_mem_noop {α : Type} (e : Engine α) (c cb : Nat)
    (h : cb ∉ (e.cells c).subs) : unsubscribe e c cb = e := by
  have hrem : swapRemove (e.cells c).subs cb = (e.cells c).subs :=
    swapRemove_not_mem _ _ h
  show ({ e with cells := upd e.cells c ⟨(e.cells c).snap, swapRemove (e.cells c).subs cb⟩ }
    : Engine α) = e
  rw [hrem]
  show ({ e with cells := upd e.cells c (e.cells c) } : Engine α) = e
  rw [upd_self]

/-! Dependency-set lemmas. -/

theorem insertDep_mem_self (deps : List Nat) (d : Nat) : d ∈ insertDep deps d := by
  by_cases h : d ∈ deps <;> simp [insertDep, h]

theorem insertDep_idem (deps : List Nat) (d : Nat) :
    insertDep (insertDep deps d) d = insertDep deps d := by
  by_cases h : d ∈ deps <;> simp [insertDep, h]

theorem insertDep_nodup (deps : List Nat) (d : Nat) (h : deps.Nodup) :
    (insertDep deps d).Nodup := by
  by_cases hm : d ∈ deps
  · simpa [insertDep, hm] using h
  · rw [insertDep, if_neg hm]
    exact ((List.nodup_cons.mpr ⟨hm, h⟩).perm (List.perm_append_singleton d deps).symm)

theorem insertDep_count_one (deps : List Nat) (d : Nat) (h : deps.Nodup) :
    (insertDep deps d).count d = 1 := by
  by_cases hm : d ∈ deps
  · rw [insertDep, if_pos hm]
    exact List.count_eq_one_of_mem h hm
  · rw [insertDep, if_neg hm]
    rw [List.count_append]
    simp [List.count_eq_zero.mpr hm]

/-! Re-entrancy guard: while a callback's `RefCell` is borrowed
(`running cb = true`), no engine step started from that position can
invoke `cb` again, because `try_borrow_mut` fails for it. -/

/-- The function `f` keeps the borrow flag of `cb` raised and never adds
an invocation of `cb` to the log (invocation counts are preserved). -/
def GuardKept {α : Type} (cb : Nat) (f : Engine α → Engine α) : Prop :=
  ∀ e : Engine α, e.running cb = true →
    (f e).running cb = true ∧ (f e).log.count cb = e.log.count cb

theorem guardKept_id {α : Type} (cb : Nat) : GuardKept cb (fun e : Engine α => e) :=
  fun _ hr => ⟨hr, rfl⟩

theorem guardKept_comp {α : Type} (cb : Nat) (f g : Engine α → Engine α)
    (hf : GuardKept cb f) (hg : GuardKept cb g) :
    GuardKept cb (fun e => g (f e)) := by
  intro e hr
  obtain ⟨h1, h2⟩ := hf e hr
  obtain ⟨h3, h4⟩ := hg (f e) h1
  exact ⟨h3, h4.trans h2⟩

theorem guardKept_runAct {α : Type} (cb : Nat)
    (doTrigger : Engine α → Nat → Engine α)
    (hdT : ∀ c, GuardKept cb (fun e => doTrigger e c)) (a : Act α) :
    GuardKept cb (fun e => runAct doTrigger e a) := by
  intro e hr
  cases a with
  | set c v =>
    have hu : (update e c v).running cb = true := hr
    obtain ⟨h1, h2⟩ := hdT c (update e c v) hu
    exact ⟨h1, h2⟩
  | subscribe c x => exact ⟨hr, rfl⟩
  | unsubscribe c x => exact ⟨hr, rfl⟩
  | dispose x => exact ⟨hr, rfl⟩

theorem guardKept_runActs {α : Type} (cb : Nat)
    (doTrigger : Engine α → Nat → Engine α)
    (hdT : ∀ c, GuardKept cb (fun e => doTrigger e c)) :
    ∀ acts : List (Act α), GuardKept cb (fun e => runActs doTrigger e acts) := by
  intro acts
  induction acts with
  | nil => exact guardKept_id cb
  | cons a rest ih =>
    have h1 := guardKept_runAct cb doTrigger hdT a
    intro e hr
    obtain ⟨ha1, ha2⟩ := h1 e hr
    obtain ⟨hb1, hb2⟩ := ih (runAct doTrigger e a) ha1
    exact ⟨hb1, hb2.trans ha2⟩

theorem invokeOne_already_running {α : Type} (beh : Nat → List (Act α))
    (doTrigger : Engine α → Nat → Engine α) (e : Engine α) (x : Nat)
    (h : e.running x = true) : invokeOne beh doTrigger e x = e := by
  unfold invokeOne
  by_cases ha : e.alive x = true
  · rw [if_pos ha, if_pos h]
  · rw [if_neg ha]

theorem invokeOne_dead {α : Type} (beh : Nat → List (Act α))
    (doTrigger : Engine α → Nat → Engine α) (e : Engine α) (x : Nat)
    (h : e.alive x = false) : invokeOne beh doTrigger e x = e := by
  unfold invokeOne
  rw [if_neg (by simp [h])]

theorem invokeOne_live {α : Type} (beh : Nat → List (Act α))
    (doTrigger : Engine α → Nat → Engine α) (e : Engine α) (x : Nat)
    (ha : e.alive x = true) (hr : e.running x = false) :
    invokeOne beh doTrigger e x =
      { runActs doTrigger
          { e with running := upd e.running x true, log := e.log ++ [x] } (beh x) with
        running := upd (runActs doTrigger
          { e with running := upd e.running x true, log := e.log ++ [x] } (beh x)).running
          x false } := by
  unfold invokeOne
  rw [if_pos ha, if_neg (by simp [hr])]

theorem guardKept_invokeOne {α : Type} (cb : Nat) (beh : Nat → List (Act α))
    (doTrigger : Engine α → Nat → Engine α)
    (hdT : ∀ c, GuardKept cb (fun e => doTrigger e c)) (x : Nat) :
    GuardKept cb (fun e => invokeOne beh doTrigger e x) := by
  intro e hr
  change (invokeOne beh doTrigger e x).running cb = true ∧
    List.count cb (invokeOne beh doTrigger e x).log = List.count cb e.log
  by_cases ha : e.alive x = true
  · by_cases hrx : e.running x = true
    · rw [invokeOne_already_running beh doTrigger e x hrx]
      exact ⟨hr, rfl⟩
    · have hrx' : e.running x = false := by simpa using hrx
      have hxcb : cb ≠ x := by
        intro h0; rw [h0] at hr; rw [hr] at hrx'; cases hrx'
      rw [invokeOne_live beh doTrigger e x ha hrx']
      set started : Engine α :=
        { e with running := upd e.running x true, log := e.log ++ [x] } with hstarted
      have hs1 : started.running cb = true := by
        rw [hstarted]; simpa [upd_other _ _ _ _ hxcb] using hr
      have hs2 : started.log.count cb = e.log.count cb := by
        rw [hstarted]
        simp [List.count_append, List.count_singleton, Ne.symm hxcb]
      obtain ⟨hf1, hf2⟩ := guardKept_runActs cb doTrigger hdT (beh x) started hs1
      refine ⟨?_, ?_⟩
      · simpa [upd_other _ _ _ _ hxcb] using hf1
      · exact hf2.trans hs2
  · have ha' : e.alive x = false := by simpa using ha
    rw [invokeOne_dead beh doTrigger e x ha']
    exact ⟨hr, rfl⟩

theorem guardKept_invokeList {α : Type} (cb : Nat) (beh : Nat → List (Act α))
    (doTrigger : Engine α → Nat → Engine α)
    (hdT : ∀ c, GuardKept cb (fun e => doTrigger e c)) :
    ∀ l : List Nat, GuardKept cb (fun e => invokeList beh doTrigger e l) := by
  intro l
  induction l with
  | nil => exact guardKept_id cb
  | cons x rest ih =>
    intro e hr
    obtain ⟨h1, h2⟩ := guardKept_invokeOne cb beh doTrigger hdT x e hr
    obtain ⟨h3, h4⟩ := ih (invokeOne beh doTrigger e x) h1
    exact ⟨h3, h4.trans h2⟩

theorem guardKept_trigger {α : Type} (cb : Nat) (beh : Nat → List (Act α)) :
    ∀ (fuel : Nat) (c : Nat),
      GuardKept cb (fun e : Engine α => trigger_subscribers beh fuel e c) := by
  intro fuel
  induction fuel with
  | zero => intro c; exact guardKept_id cb
  | succ fuel ih =>
    intro c e hr
    exact guardKept_invokeList cb beh (trigger_subscribers beh fuel) ih
      (e.cells c).subs.reverse e hr

/-! Helper lemmas for sequences of writes and for passes over live,
inert subscribers. -/

theorem currentValue_foldl_set {α : Type} (beh : Nat → List (Act α)) (fuel : Nat)
    (c : Nat) :
    ∀ (vs : List α) (e : Engine α) (hvs : vs ≠ []), (e.cells c).subs = [] →
      currentValue (vs.foldl (fun acc v => Sycamore.set beh fuel acc c v) e) c
        = some (vs.getLast hvs) := by
  intro vs
  induction vs with
  | nil => intro e hvs _; cases hvs rfl
  | cons v vs' ih =>
    intro e hvs h
    rw [List.foldl_cons, set_fresh beh fuel e c v h]
    cases vs' with
    | nil =>
      simpa [List.foldl] using currentValue_update e c v
    | cons w ws =>
      have h' : ((update e c v).cells c).subs = [] := by
        rw [update_subs]; exact h
      rw [ih (update e c v) (by simp) h']
      rw [List.getLast_cons (by simp : (w :: ws) ≠ [])]

theorem trigger_inert_live_log {α : Type} (beh : Nat → List (Act α)) (fuel : Nat)
    (e : Engine α) (c : Nat)
    (h : ∀ cb ∈ (e.cells c).subs, beh cb = [] ∧ e.alive cb = true ∧ e.running cb = false) :
    (trigger_subscribers beh (fuel + 1) e c).log = e.log ++ (e.cells c).subs.reverse := by
  rw [trigger_inert_log beh fuel e c (fun cb hcb => (h cb hcb).1)]
  congr 1
  apply List.filter_eq_self.mpr
  intro cb hcb
  obtain ⟨_, ha, hr⟩ := h cb (List.mem_reverse.mp hcb)
  simp [liveb, ha, hr]

theorem set_inert_live_log {α : Type} (beh : Nat → List (Act α)) (fuel : Nat)
    (e : Engine α) (c : Nat) (v : α)
    (h : ∀ cb ∈ (e.cells c).subs, beh cb = [] ∧ e.alive cb = true ∧ e.running cb = false) :
    (Sycamore.set beh (fuel + 1) e c v).log = e.log ++ (e.cells c).subs.reverse := by
  show (trigger_subscribers beh (fuel + 1) (update e c v) c).log
    = e.log ++ (e.cells c).subs.reverse
  have h' : ∀ cb ∈ ((update e c v).cells c).subs,
      beh cb = [] ∧ (update e c v).alive cb = true ∧ (update e c v).running cb = false := by
    rw [update_subs, update_alive, update_running]
    exact h
  rw [trigger_inert_live_log beh fuel (update e c v) c h', update_subs, update_log]

/-! Claim theorems. -/

/-- C1: `set(v)` replaces the stored snapshot with `v` and then invokes
`trigger_subscribers` unconditionally: (1) `set` is literally `update`
followed by `trigger_subscribers`; (2) after any non-empty sequence of
`set` calls on a fresh cell (empty subscriber map), `get_untracked`
dereferences to the value passed to the last `set`; (3) a `set` notifies
every live subscriber — the hypotheses nowhere compare the new value with
the old one, so subscribers fire even when the value is unchanged. -/
theorem set_replaces_value_then_always_notifies {α : Type} :
    (∀ (beh : Nat → List (Act α)) (fuel : Nat) (e : Engine α) (c : Nat) (v : α),
        Sycamore.set beh fuel e c v = trigger_subscribers beh fuel (update e c v) c)
    ∧ (∀ (beh : Nat → List (Act α)) (fuel : Nat) (e : Engine α) (c : Nat)
        (vs : List α) (hvs : vs ≠ []), (e.cells c).subs = [] →
        currentValue (vs.foldl (fun acc v => Sycamore.set beh fuel acc c v) e) c
          = some (vs.getLast hvs))
    ∧ (∀ (beh : Nat → List (Act α)) (fuel : Nat) (e : Engine α) (c : Nat) (v : α),
        (∀ cb ∈ (e.cells c).subs,
          beh cb = [] ∧ e.alive cb = true ∧ e.running cb = false) →
        (Sycamore.set beh (fuel + 1) e c v).log = e.log ++ (e.cells c).subs.reverse) := by
  refine ⟨fun _ _ _ _ _ => rfl, ?_, ?_⟩
  · intro beh fuel e c vs hvs h
    exact currentValue_foldl_set beh fuel c vs e hvs h
  · intro beh fuel e c v h
    exact set_inert_live_log beh fuel e c v h

/-- C1 witness: a fresh cell set to 5, 3, 3 ends holding 3; and setting a
cell that already holds 5 to the same value 5 still fires its subscriber
(identity 4 lands in the log). -/
theorem set_replaces_value_then_always_notifies_witness :
    currentValue
        (([5, 3, 3] : List Nat).foldl
          (fun acc v => Sycamore.set (fun _ => []) 1 acc 0 v)
          { heap := [0], cells := fun _ => ⟨0, []⟩,
            alive := fun _ => true, running := fun _ => false, log := [] }) 0 = some 3
    ∧ (Sycamore.set (fun _ => []) 1
        { heap := [5], cells := upd (fun _ => ⟨0, []⟩) 0 ⟨0, [4]⟩,
          alive := fun _ => true, running := fun _ => false, log := [] } 0 5).log
        = [4] := by
  constructor
  · exact set_replaces_value_then_always_notifies.2.1 (fun _ => []) 1 _ 0 [5, 3, 3]
      (by simp) rfl
  · have h := set_replaces_value_then_always_notifies.2.2 (fun _ => []) 0
      { heap := [5], cells := upd (fun _ => ⟨0, []⟩) 0 ⟨0, [4]⟩,
        alive := fun _ => true, running := fun _ => false, log := [] } 0 5 (by decide)
    simpa using h

/-- C2: within one propagation pass the live subscribers are invoked in
reverse insertion order: for inert live subscribers the log extension is
exactly the reversed subscriber sequence, and in particular with A
subscribed first and B subscribed second a `set` logs B before A. -/
theorem trigger_subscribers_reverse_insertion_order {α : Type} :
    (∀ (beh : Nat → List (Act α)) (fuel : Nat) (e : Engine α) (c : Nat),
        (∀ cb ∈ (e.cells c).subs,
          beh cb = [] ∧ e.alive cb = true ∧ e.running cb = false) →
        (trigger_subscribers beh (fuel + 1) e c).log
          = e.log ++ (e.cells c).subs.reverse)
    ∧ (∀ (beh : Nat → List (Act α)) (fuel : Nat) (e : Engine α) (c A B : Nat) (v : α),
        (e.cells c).subs = [A, B] →
        (∀ cb ∈ (e.cells c).subs,
          beh cb = [] ∧ e.alive cb = true ∧ e.running cb = false) →
        (Sycamore.set beh (fuel + 1) e c v).log = e.log ++ [B, A]) := by
  constructor
  · intro beh fuel e c h
    exact trigger_inert_live_log beh fuel e c h
  · intro beh fuel e c A B v hsubs h
    rw [set_inert_live_log beh fuel e c v h, hsubs]
    rfl

/-- C2 witness: cell 0 with subscribers 4 (first) then 7 (second); a
`set` invokes 7 before 4. -/
theorem trigger_subscribers_reverse_insertion_order_witness :
    (Sycamore.set (fun _ => ([] : List (Act Nat))) 1
      { heap := [0], cells := upd (fun _ => ⟨0, []⟩) 0 ⟨0, [4, 7]⟩,
        alive := fun _ => true, running := fun _ => false, log := [] } 0 5).log
      = [7, 4] := by
  have h := trigger_subscribers_reverse_insertion_order.2 (fun _ => []) 0
    { heap := [0], cells := upd (fun _ => ⟨0, []⟩) 0 ⟨0, [4, 7]⟩,
      alive := fun _ => true, running := fun _ => false, log := [] } 0 4 7 5 rfl (by decide)
  simpa using h

/-- C3: a callback whose `RefCell` is currently borrowed (it is
executing) is never re-entered by a nested propagation pass: any
`trigger_subscribers` started while `running cb` holds leaves the
invocation count of `cb` unchanged (the nested notification is dropped,
not queued) and keeps the borrow flag up.  Consequently a callback that
`set`s the very cell it is subscribed to runs exactly once and the
overall `set` terminates with the inner write's value in place. -/
theorem reentrancy_guard_never_reenters {α : Type} :
    (∀ (beh : Nat → List (Act α)) (fuel : Nat) (e : Engine α) (c cb : Nat),
        e.running cb = true →
        (trigger_subscribers beh fuel e c).running cb = true ∧
        List.count cb (trigger_subscribers beh fuel e c).log = List.count cb e.log)
    ∧ (∀ u v w : α,
        (Sycamore.set (fun cb => if cb = 0 then [Act.set 0 w] else []) 5
          { heap := [u], cells := upd (fun _ => ⟨0, []⟩) 0 ⟨0, [0]⟩,
            alive := fun _ => true, running := fun _ => false, log := [] } 0 v).log = [0]
        ∧ currentValue
            (Sycamore.set (fun cb => if cb = 0 then [Act.set 0 w] else []) 5
              { heap := [u], cells := upd (fun _ => ⟨0, []⟩) 0 ⟨0, [0]⟩,
                alive := fun _ => true, running := fun _ => false, log := [] } 0 v) 0
            = some w) := by
  constructor
  · intro beh fuel e c cb hr
    exact guardKept_trigger cb beh fuel c e hr
  · intro u v w
    exact ⟨rfl, rfl⟩

/-- C3 witness: a pass over cell 1 started while callback 0 is marked
executing does not invoke 0 again; and the concrete self-subscribed,
self-setting callback runs exactly once, ending with its inner value. -/
theorem reentrancy_guard_never_reenters_witness :
    ((trigger_subscribers (fun _ => ([] : List (Act Nat))) 3
        { heap := [0], cells := upd (fun _ => ⟨0, []⟩) 1 ⟨0, [0, 2]⟩,
          alive := fun _ => true, running := upd (fun _ => false) 0 true,
          log := [] } 1).running 0 = true ∧
      List.count 0 (trigger_subscribers (fun _ => ([] : List (Act Nat))) 3
        { heap := [0], cells := upd (fun _ => ⟨0, []⟩) 1 ⟨0, [0, 2]⟩,
          alive := fun _ => true, running := upd (fun _ => false) 0 true,
          log := [] } 1).log = List.count 0 ([] : List Nat))
    ∧ ((Sycamore.set (fun cb => if cb = 0 then [Act.set 0 9] else []) 5
          { heap := [1], cells := upd (fun _ => ⟨0, []⟩) 0 ⟨0, [0]⟩,
            alive := fun _ => true, running := fun _ => false, log := [] } 0 2).log = [0]
        ∧ currentValue
            (Sycamore.set (fun cb => if cb = 0 then [Act.set 0 9] else []) 5
              { heap := [1], cells := upd (fun _ => ⟨0, []⟩) 0 ⟨0, [0]⟩,
                alive := fun _ => true, running := fun _ => false, log := [] } 0 2) 0
            = some 9) :=
  ⟨reentrancy_guard_never_reenters.1 (fun _ => []) 3 _ 1 0 rfl,
   reentrancy_guard_never_reenters.2 1 2 9⟩

/-- C4: a propagation pass iterates exactly over a copy of the
subscriber map taken at the start of the call: (1) `trigger_subscribers`
is the iteration of `invokeOne` over the reversed clone of the map as it
stood on entry; (2) concretely, with subscribers 0, 1, 2 on cell 0 where
callback 2 (invoked first) unsubscribes 0 and subscribes a new callback
3 mid-pass, the pass still invokes exactly 2, 1, 0 in that order — the
removal of 0 does not take it out of the pass and the addition of 3 does
not add it — while the map afterwards reads `[2, 1, 3]` (0 was
swap-removed, 3 appended). -/
theorem trigger_subscribers_iterates_snapshot {α : Type} :
    (∀ (beh : Nat → List (Act α)) (fuel : Nat) (e : Engine α) (c : Nat),
        trigger_subscribers beh (fuel + 1) e c
          = invokeList beh (trigger_subscribers beh fuel) e (e.cells c).subs.reverse)
    ∧ (∀ u v : α,
        (Sycamore.set
            (fun cb => if cb = 2 then [Act.unsubscribe 0 0, Act.subscribe 0 3] else [])
            2
            { heap := [u], cells := upd (fun _ => ⟨0, []⟩) 0 ⟨0, [0, 1, 2]⟩,
              alive := fun _ => true, running := fun _ => false, log := [] } 0 v).log
          = [2, 1, 0]
        ∧ ((Sycamore.set
            (fun cb => if cb = 2 then [Act.unsubscribe 0 0, Act.subscribe 0 3] else [])
            2
            { heap := [u], cells := upd (fun _ => ⟨0, []⟩) 0 ⟨0, [0, 1, 2]⟩,
              alive := fun _ => true, running := fun _ => false, log := [] } 0 v).cells
            0).subs = [2, 1, 3]) := by
  exact ⟨fun _ _ _ _ => rfl, fun u v => ⟨rfl, rfl⟩⟩

/-- C5: a subscriber whose owning computation was disposed before the
pass reaches it is skipped silently: (1) `invokeOne` on a dead weak
reference returns the state unchanged (no invocation, no error — the
function is total); (2) for a pass over inert, non-executing
subscribers, the log extension is the reversed subscriber sequence
filtered to the still-alive ones, so the dead entries vanish and every
remaining subscriber still fires in order. -/
theorem dead_subscriber_skipped_silently {α : Type} :
    (∀ (beh : Nat → List (Act α)) (doTrigger : Engine α → Nat → Engine α)
        (e : Engine α) (x : Nat),
        e.alive x = false → invokeOne beh doTrigger e x = e)
    ∧ (∀ (beh : Nat → List (Act α)) (fuel : Nat) (e : Engine α) (c : Nat),
        (∀ cb ∈ (e.cells c).subs, beh cb = [] ∧ e.running cb = false) →
        (trigger_subscribers beh (fuel + 1) e c).log
          = e.log ++ (e.cells c).subs.reverse.filter (fun cb => e.alive cb)) := by
  constructor
  · intro beh doTrigger e x h
    exact invokeOne_dead beh doTrigger e x h
  · intro beh fuel e c h
    rw [trigger_inert_log beh fuel e c (fun cb hcb => (h cb hcb).1)]
    congr 1
    apply List.filter_congr
    intro cb hcb
    have hr := (h cb (List.mem_reverse.mp hcb)).2
    simp [liveb, hr]

/-- C5 witness: subscribers 0, 1, 2 on cell 0 with callback 1 disposed:
the pass logs exactly 2 then 0 (1 skipped silently, the rest in reverse
order), and `invokeOne` on the dead callback 1 leaves the engine
untouched. -/
theorem dead_subscriber_skipped_silently_witness :
    (invokeOne (fun _ => ([] : List (Act Nat))) (fun e _ => e)
        { heap := [0], cells := upd (fun _ => ⟨0, []⟩) 0 ⟨0, [0, 1, 2]⟩,
          alive := upd (fun _ => true) 1 false, running := fun _ => false, log := [] } 1
      = { heap := [0], cells := upd (fun _ => ⟨0, []⟩) 0 ⟨0, [0, 1, 2]⟩,
          alive := upd (fun _ => true) 1 false, running := fun _ => false, log := [] })
    ∧ (trigger_subscribers (fun _ => ([] : List (Act Nat))) 1
        { heap := [0], cells := upd (fun _ => ⟨0, []⟩) 0 ⟨0, [0, 1, 2]⟩,
          alive := upd (fun _ => true) 1 false, running := fun _ => false, log := [] }
        0).log = [2, 0] := by
  constructor
  · exact dead_subscriber_skipped_silently.1 (fun _ => []) (fun e _ => e) _ 1 rfl
  · have h := dead_subscriber_skipped_silently.2 (fun _ => []) 0
      { heap := [0], cells := upd (fun _ => ⟨0, []⟩) 0 ⟨0, [0, 1, 2]⟩,
        alive := upd (fun _ => true) 1 false, running := fun _ => false, log := [] }
      0 (by decide)
    simpa using h

/-- C6: a tracked read with a non-empty listener stack inserts exactly
one dependency edge for the read cell into the top context's dependency
set: (1) `get` rewrites only the top context, inserting the cell into
its dependency set; (2) reading the same cell again changes nothing
(idempotent registration); (3) on a duplicate-free dependency set the
inserted cell occurs exactly once afterwards and the set stays
duplicate-free. -/
theorem tracked_get_registers_one_edge {α : Type} :
    (∀ (ctx : Running) (rest : List Running) (e : Engine α) (c : Nat),
        Sycamore.get (ctx :: rest) e c
          = (⟨insertDep ctx.dependencies c⟩ :: rest, get_untracked e c))
    ∧ (∀ (ctx : Running) (rest : List Running) (e : Engine α) (c : Nat),
        (Sycamore.get (Sycamore.get (ctx :: rest) e c).1 e c).1
          = (Sycamore.get (ctx :: rest) e c).1)
    ∧ (∀ (deps : List Nat) (d : Nat), deps.Nodup →
        d ∈ insertDep deps d ∧ (insertDep deps d).count d = 1
          ∧ (insertDep deps d).Nodup) := by
  refine ⟨fun _ _ _ _ => rfl, ?_, ?_⟩
  · intro ctx rest e c
    show (⟨insertDep (insertDep ctx.dependencies c) c⟩ :: rest : List Running)
      = ⟨insertDep ctx.dependencies c⟩ :: rest
    rw [insertDep_idem]
  · intro deps d h
    exact ⟨insertDep_mem_self deps d, insertDep_count_one deps d h,
      insertDep_nodup deps d h⟩

/-- C6 witness: reading cell 3 inside an active context holding
dependencies `[1, 2]` yields `[1, 2, 3]`; reading it twice more changes
nothing, and 3 occurs exactly once. -/
theorem tracked_get_registers_one_edge_witness :
    (Sycamore.get [⟨[1, 2]⟩]
        ({ heap := [0], cells := fun _ => ⟨0, []⟩, alive := fun _ => true,
           running := fun _ => false, log := [] } : Engine Nat) 3
      = ([⟨[1, 2, 3]⟩], 0))
    ∧ (Sycamore.get (Sycamore.get [(⟨[1, 2]⟩ : Running)]
        ({ heap := [0], cells := fun _ => ⟨0, []⟩, alive := fun _ => true,
           running := fun _ => false, log := [] } : Engine Nat) 3).1
        ({ heap := [0], cells := fun _ => ⟨0, []⟩, alive := fun _ => true,
           running := fun _ => false, log := [] } : Engine Nat) 3).1
      = [⟨[1, 2, 3]⟩]
    ∧ (3 ∈ insertDep [1, 2] 3 ∧ (insertDep [1, 2] 3).count 3 = 1
        ∧ (insertDep [1, 2] 3).Nodup) := by
  refine ⟨?_, ?_, ?_⟩
  · exact (tracked_get_registers_one_edge.1 ⟨[1, 2]⟩ [] _ 3).trans (by rfl)
  · exact (tracked_get_registers_one_edge.2.1 ⟨[1, 2]⟩ [] _ 3).trans (by rfl)
  · exact (@tracked_get_registers_one_edge Nat).2.2 [1, 2] 3 (by decide)

/-- C7: a `get` with an empty listener stack registers nothing and is
not an error path (the function is total and simply skips the tracking
block), returning exactly what `get_untracked` returns; and
`get_untracked` never touches the tracker whatever its state. -/
theorem empty_stack_get_registers_nothing {α : Type} :
    (∀ (e : Engine α) (c : Nat),
        Sycamore.get ([] : List Running) e c = ([], get_untracked e c))
    ∧ (∀ (ts : List Running) (e : Engine α) (c : Nat),
        (Sycamore.get ts e c).2 = get_untracked e c)
    ∧ (∀ (ts : List Running) (e : Engine α) (c : Nat),
        get_untrackedT ts e c = (ts, get_untracked e c)) := by
  refine ⟨fun _ _ => rfl, ?_, fun _ _ _ => rfl⟩
  intro ts e c
  cases ts with
  | nil => rfl
  | cons ctx rest => rfl

/-- C8: the subscriber map never holds two entries with the same
callback identity, and both graph operations keep it that way: (1)
`subscribe` and `unsubscribe` preserve duplicate-freeness; (2)
subscribing an identity that is already present leaves the engine — in
particular the map's key sequence, hence key set and insertion order —
entirely unchanged; (3) unsubscribing an absent identity likewise
changes nothing; both operations are total, so neither can raise an
error. -/
theorem subscriber_map_nodup_invariant {α : Type} :
    (∀ (e : Engine α) (c cb : Nat), (e.cells c).subs.Nodup →
        ((subscribe e c cb).cells c).subs.Nodup
        ∧ ((unsubscribe e c cb).cells c).subs.Nodup)
    ∧ (∀ (e : Engine α) (c cb : Nat), cb ∈ (e.cells c).subs → subscribe e c cb = e)
    ∧ (∀ (e : Engine α) (c cb : Nat), cb ∉ (e.cells c).subs → unsubscribe e c cb = e) := by
  refine ⟨?_, ?_, ?_⟩
  · intro e c cb h
    constructor
    · show (upd e.cells c ⟨(e.cells c).snap, insertSub (e.cells c).subs cb⟩ c).subs.Nodup
      rw [upd_same]
      exact insertSub_nodup _ _ h
    · show (upd e.cells c ⟨(e.cells c).snap, swapRemove (e.cells c).subs cb⟩ c).subs.Nodup
      rw [upd_same]
      exact swapRemove_nodup _ _ h
  · intro e c cb h
    exact subscribe_mem_noop e c cb h
  · intro e c cb h
    exact unsubscribe_not_mem_noop e c cb h

/-- C8 witness: on a cell whose map holds `[4, 7]`, re-subscribing 4 and
unsubscribing the absent 9 both leave the engine unchanged, and both
operations preserve duplicate-freeness. -/
theorem subscriber_map_nodup_invariant_witness :
    (subscribe
        ({ heap := [0], cells := upd (fun _ => ⟨0, []⟩) 0 ⟨0, [4, 7]⟩,
           alive := fun _ => true, running := fun _ => false, log := [] } : Engine Nat) 0 4
      = { heap := [0], cells := upd (fun _ => ⟨0, []⟩) 0 ⟨0, [4, 7]⟩,
          alive := fun _ => true, running := fun _ => false, log := [] })
    ∧ (unsubscribe
        ({ heap := [0], cells := upd (fun _ => ⟨0, []⟩) 0 ⟨0, [4, 7]⟩,
           alive := fun _ => true, running := fun _ => false, log := [] } : Engine Nat) 0 9
      = { heap := [0], cells := upd (fun _ => ⟨0, []⟩) 0 ⟨0, [4, 7]⟩,
          alive := fun _ => true, running := fun _ => false, log := [] })
    ∧ ((subscribe
          ({ heap := [0], cells := upd (fun _ => ⟨0, []⟩) 0 ⟨0, [4, 7]⟩,
             alive := fun _ => true, running := fun _ => false, log := [] } : Engine Nat)
          0 9).cells 0).subs.Nodup := by
  refine ⟨?_, ?_, ?_⟩
  · exact subscriber_map_nodup_invariant.2.1 _ 0 4 (by decide)
  · exact subscriber_map_nodup_invariant.2.2 _ 0 9 (by decide)
  · exact (subscriber_map_nodup_invariant.1 _ 0 9 (by decide)).1

/-- C9: `update` replaces the value snapshot and does nothing else
observable: the new current value is the argument, no callback is
invoked (log and borrow flags untouched), every cell's subscriber map is
untouched, and a snapshot taken before the update still dereferences to
its old value afterwards (the heap entry it points to is unchanged —
`update` installs a brand-new `Rc`, it never mutates the old one). -/
theorem update_replaces_snapshot_without_notifying {α : Type} :
    ∀ (e : Engine α) (c : Nat) (v : α),
      currentValue (update e c v) c = some v
      ∧ (update e c v).log = e.log
      ∧ (update e c v).running = e.running
      ∧ (∀ c', ((update e c v).cells c').subs = (e.cells c').subs)
      ∧ (∀ p, p < e.heap.length → snapVal (update e c v) p = snapVal e p) := by
  intro e c v
  refine ⟨currentValue_update e c v, rfl, rfl, fun c' => update_subs e c c' v, ?_⟩
  intro p hp
  exact heap_lookup_update e c v p hp

/-- C9 witness: updating a cell holding 5 to 6 leaves the old snapshot 0
dereferencing to 5, installs 6 as the current value, and touches neither
the log nor the subscriber map. -/
theorem update_replaces_snapshot_without_notifying_witness :
    currentValue
        (update ({ heap := [5], cells := upd (fun _ => ⟨0, []⟩) 0 ⟨0, [4]⟩,
                   alive := fun _ => true, running := fun _ => false,
                   log := [] } : Engine Nat) 0 6) 0 = some 6
    ∧ (update ({ heap := [5], cells := upd (fun _ => ⟨0, []⟩) 0 ⟨0, [4]⟩,
                 alive := fun _ => true, running := fun _ => false,
                 log := [] } : Engine Nat) 0 6).log = []
    ∧ ((update ({ heap := [5], cells := upd (fun _ => ⟨0, []⟩) 0 ⟨0, [4]⟩,
                  alive := fun _ => true, running := fun _ => false,
                  log := [] } : Engine Nat) 0 6).cells 0).subs = [4]
    ∧ snapVal
        (update ({ heap := [5], cells := upd (fun _ => ⟨0, []⟩) 0 ⟨0, [4]⟩,
                   alive := fun _ => true, running := fun _ => false,
                   log := [] } : Engine Nat) 0 6) 0 = snapVal
        ({ heap := [5], cells := upd (fun _ => ⟨0, []⟩) 0 ⟨0, [4]⟩,
           alive := fun _ => true, running := fun _ => false,
           log := [] } : Engine Nat) 0 := by
  have h := update_replaces_snapshot_without_notifying
    ({ heap := [5], cells := upd (fun _ => ⟨0, []⟩) 0 ⟨0, [4]⟩,
       alive := fun _ => true, running := fun _ => false, log := [] } : Engine Nat) 0 6
  refine ⟨h.1, h.2.1, ?_, h.2.2.2.2 0 (by decide)⟩
  exact (h.2.2.2.1 0).trans (by rfl)

/-- C10: signal equality and hashing go through the current value, not
the cell identity: `sigEq` holds exactly when the dereferenced current
snapshots are equal, `sigHash` is the value hash of the current
snapshot, and concretely two independently created cells holding equal
values compare equal while a later `set` on one of them flips the
comparison (both handle flavors run the same `get_untracked`-based
code, so one model covers both). -/
theorem signal_eq_and_hash_by_current_value :
    (∀ (α : Type) (i : DecidableEq α) (e : Engine α) (a b : Nat),
        @sigEq α i e a b = true ↔ currentValue e a = currentValue e b)
    ∧ (∀ (α : Type) (h : α → Nat) (e : Engine α) (a : Nat),
        sigHash h e a = (currentValue e a).map h)
    ∧ (sigEq ({ heap := [5, 5], cells := fun c => if c = 1 then ⟨1, []⟩ else ⟨0, []⟩,
                alive := fun _ => true, running := fun _ => false,
                log := [] } : Engine Nat) 0 1 = true
      ∧ sigEq
          (Sycamore.set (fun _ => []) 1
            ({ heap := [5, 5], cells := fun c => if c = 1 then ⟨1, []⟩ else ⟨0, []⟩,
               alive := fun _ => true, running := fun _ => false,
               log := [] } : Engine Nat) 1 6) 0 1 = false) := by
  refine ⟨?_, fun _ _ _ _ => rfl, by decide, by decide⟩
  intro α i e a b
  simp [sigEq]

end Sycamore
